import Mathlib

/-!
# Verification of `CreateSectionTable.py`

Shallow embedding of the section-table parser and lookup code
(`tools/unit-test-app/tools/CreateSectionTable.py`): parsing of
`objdump -s` style hex dumps into sections, and address-based reads of
unsigned integers and NUL-terminated strings.

Bytes are modelled as `Nat` values (Python represents them as one-character
strings, combined with `ord`/`chr`).  Input lines are modelled as `String`;
a trailing `"\n"` left by `readlines` is immaterial to every operation
involved (the regexes never match across or beyond it), so lines may be
given with or without it.
-/

namespace CreateSectionTable

/-! ## Data model -/

/-- One section of the section table: `Section.__init__` stores a name,
a start address and the raw byte data. -/
structure Section where
  name : String
  start_address : Nat
  data : List Nat
deriving DecidableEq, Repr

/-- `Section.__contains__`: the query key `{section, address}` matches iff
the section name matches (or is the wildcard `"any"`) and the address lies
inside `[start_address, start_address + len(data))`. -/
def Section.contains (s : Section) (sectionName : String) (address : Nat) : Bool :=
  ((sectionName == s.name) || (sectionName == "any")) &&
    (decide (s.start_address ≤ address) && decide (address < s.start_address + s.data.length))

/-! ## Regex and line primitives

`DATA_PATTERN = re.compile("([0-9a-f]{4,8})")` scans a line for
non-overlapping, leftmost-greedy runs of 4 to 8 lowercase hex digits.
On a maximal run of hex digits this produces chunks of 8 digits while at
least 8 remain, then one final token if 4 to 8 digits remain, and drops a
remainder of 1 to 3 digits. -/

/-- Lowercase hex digit test, exactly the character class `[0-9a-f]`. -/
def isHexDigit (c : Char) : Bool :=
  (('0' ≤ c) && (c ≤ '9')) || (('a' ≤ c) && (c ≤ 'f'))

/-- Chunk one maximal hex-digit run the way leftmost-greedy `{4,8}` matching
does (fuel-indexed for structural recursion; fuel `run.length` suffices). -/
def chunkFuel : Nat → List Char → List (List Char)
  | 0, _ => []
  | fuel + 1, run =>
    if run.length < 4 then []
    else if run.length ≤ 8 then [run]
    else run.take 8 :: chunkFuel fuel (run.drop 8)

/-- Tokens produced by the regex on one maximal run of hex digits. -/
def chunkTokens (run : List Char) : List (List Char) :=
  chunkFuel run.length run

/-- Scanner for `DATA_PATTERN.findall`: accumulate the current hex run
(in reverse) and flush it through `chunkTokens` at each non-hex character. -/
def findallAux : List Char → List Char → List (List Char)
  | [], cur => chunkTokens cur.reverse
  | c :: cs, cur =>
    if isHexDigit c then findallAux cs (c :: cur)
    else chunkTokens cur.reverse ++ findallAux cs []

/-- `DATA_PATTERN.findall(s)`: all 4-to-8 digit hex tokens of `s`. -/
def findallHex (cs : List Char) : List (List Char) :=
  findallAux cs []

/-- `line.split("  ")[0]`: the part of the line before the first occurrence
of two consecutive spaces (the whole line when there is none). -/
def splitTwoSpaces : List Char → List Char
  | [] => []
  | [c] => [c]
  | c :: c2 :: rest =>
    if c = ' ' ∧ c2 = ' ' then [] else c :: splitTwoSpaces (c2 :: rest)

/-- Numeric value of one lowercase hex digit character. -/
def hexVal (c : Char) : Nat :=
  if c ≤ '9' then c.toNat - '0'.toNat else c.toNat - 'a'.toNat + 10

/-- `int(s, base=16)` on a string of hex digits. -/
def hexToNat (cs : List Char) : Nat :=
  cs.foldl (fun a c => a * 16 + hexVal c) 0

/-- Decode consecutive pairs of hex digits into byte values
(`[chr(int(hex_data[i:i+2], 16)) for i in range(0, length, 2)]`). -/
def decodePairs : List Char → List Nat
  | a :: b :: rest => (hexVal a * 16 + hexVal b) :: decodePairs rest
  | _ => []

/-- `hex_to_str` (inner helper of `process_data_line`): left-pad the hex
string with one `0` when its length is odd, then decode digit pairs. -/
def hex_to_str (hex_data : List Char) : List Nat :=
  decodePairs (if hex_data.length % 2 == 1 then '0' :: hex_data else hex_data)

/-- `process_data_line`: strip the ASCII rendering (everything from the
first two consecutive spaces on), extract hex tokens, read the first token
as the address (`none` models the `-1` sentinel set on `IndexError`), and
decode the remaining tokens, each through `hex_to_str`, into bytes. -/
def process_data_line (line : List Char) : Option Nat × List Nat :=
  let data_list := findallHex (splitTwoSpaces line)
  (match data_list with
   | [] => none
   | t :: _ => some (hexToNat t),
   ((data_list.drop 1).map hex_to_str).flatten)

/-! ## Section header search

`SECTION_START_PATTERN = re.compile("Contents of section (.+?):")`:
`search` looks for the leftmost position where the literal is followed by a
nonempty, lazily-matched name and a colon; on failure at one position the
scan resumes one character later. -/

/-- The literal part of `SECTION_START_PATTERN`. -/
def headerLiteral : List Char := "Contents of section ".data

/-- The lazy group `(.+?):` right after the literal: at least one character,
then everything up to the first following colon; fails without a colon. -/
def nameUpToColon : List Char → Option (List Char)
  | [] => none
  | c :: rest =>
    if rest.contains ':' then some (c :: rest.takeWhile (fun x => x ≠ ':'))
    else none

/-- `SECTION_START_PATTERN.search(line)`: the captured name, if any. -/
def searchHeader : List Char → Option (List Char)
  | [] => none
  | c :: rest =>
    if headerLiteral.isPrefixOf (c :: rest) then
      match nameUpToColon ((c :: rest).drop headerLiteral.length) with
      | some n => some n
      | none => searchHeader rest
    else searchHeader rest

/-- The header-seeking loop of `parse_raw_data`: find the first line whose
header regex matches, returning the captured name and the following lines. -/
def findHeader : List String → Option (String × List String)
  | [] => none
  | line :: rest =>
    match searchHeader line.data with
    | some n => some (String.mk n, rest)
    | none => findHeader rest

/-! ## `Section.parse_raw_data` -/

/-- The data-line consuming loop: `(none, _)` from `process_data_line`
(Python's `address == -1`) breaks with `raw_data[i:]` (the failing line
kept); the second component is `some` of that remainder, and `none` when
the loop finishes without a break (in which case Python leaves `raw_data`
bound to the whole list it iterated). -/
def consumeAux : List String → List Nat × Option (List String)
  | [] => ([], none)
  | line :: rest =>
    match process_data_line line.data with
    | (none, _) => ([], some (line :: rest))
    | (some _, d) =>
      let r := consumeAux rest
      (d ++ r.1, r.2)

/-- Data accumulated by the loop, and the final value of `raw_data`:
the break remainder, or the untouched iterated list when no line failed. -/
def consumeLines (lines : List String) : List Nat × List String :=
  match consumeAux lines with
  | (ds, some rest) => (ds, rest)
  | (ds, none) => (ds, lines)

/-- Result of `Section.parse_raw_data`.  `error` models the uncaught
`IndexError` of `raw_data[0]` when a header is found on the last line
(no line follows it). -/
inductive ParseResult where
  | ok (sec : Option Section) (unprocessed : Option (List String)) : ParseResult
  | error : ParseResult
deriving DecidableEq, Repr

/-- `Section.parse_raw_data`: find a header line (falling back to the dummy
list `[""]` when none matches), parse the first following line — its address
becomes `start_address`, else the parse of this chunk is abandoned — then
consume further data lines.  Python tracks `start_address` as an integer
initialised to `0` and guards the final construction with
`start_address != -1`; since `-1` is only ever assigned to the local
`address` (and rejected before the assignment to `start_address`), the
guard is kept here, vacuously true, with the sentinel flow made explicit. -/
def parse_raw_data (raw_data : List String) : ParseResult :=
  let p := match findHeader raw_data with
    | some nr => nr
    | none => ("", [""])
  match p.2 with
  | [] => ParseResult.error
  | first :: restLines =>
    let q := process_data_line first.data
    let r : Int × List Nat × Option (List String) :=
      match q.1 with
      | some a =>
        let c := consumeLines restLines
        ((a : Int), q.2 ++ c.1, if c.2.isEmpty then none else some c.2)
      | none => (0, [], none)
    ParseResult.ok
      (if r.1 ≠ -1 then some ⟨p.1, r.1.toNat, r.2.1⟩ else none)
      r.2.2

/-! ## `SectionTable` -/

/-- The constructor loop `while raw_data: section, raw_data = parse...`,
fuel-indexed (each iteration consumes at least the header line, so fuel
`length + 1` always suffices); `none` models a crash of the loop
(`ParseResult.error`) or exhausted fuel. -/
def buildTableFuel : Nat → List String → Option (List (Option Section))
  | 0, _ => none
  | _, [] => some []
  | fuel + 1, line :: rest =>
    match parse_raw_data (line :: rest) with
    | ParseResult.error => none
    | ParseResult.ok sec unprocessed =>
      match unprocessed with
      | none => some [sec]
      | some more => (buildTableFuel fuel more).map (fun t => sec :: t)

/-- `SectionTable.__init__` applied to the lines of the file. -/
def buildTable (lines : List String) : Option (List (Option Section)) :=
  buildTableFuel (lines.length + 1) lines

/-- The linear scan shared by `get_unsigned_int` and `get_string`:
the first section of the table whose `__contains__` accepts the key.
In practice every entry appended by the constructor is a constructed
`Section` (see `parse_raw_data`), so the table is modelled as
`List Section`. -/
def findMatch (table : List Section) (sectionName : String) (address : Nat) :
    Option Section :=
  table.find? (fun s => s.contains sectionName address)

/-- Outcome of `get_unsigned_int`.  `value`/`none` are the return values;
`assertionError` models `assert False` on an endian argument other than
`"LE"`/`"BE"`; `indexError` models `ord(tmp[i])` indexing past the end of
the sliced data. -/
inductive GetIntResult where
  | value (v : Nat) : GetIntResult
  | none : GetIntResult
  | assertionError : GetIntResult
  | indexError : GetIntResult
deriving DecidableEq, Repr

/-- The byte-combining loop `for i in range(size)`, over an explicit index
list.  In each iteration the endian dispatch happens before the index
`tmp[i]` is evaluated, exactly as in the Python expression order. -/
def combineLoop (tmp : List Nat) (size : Nat) (endian : String) :
    List Nat → Nat → GetIntResult
  | [], value => GetIntResult.value value
  | i :: rest, value =>
    if endian == "LE" then
      match tmp.get? i with
      | some b => combineLoop tmp size endian rest (value + (b <<< (i * 8)))
      | none => GetIntResult.indexError
    else if endian == "BE" then
      match tmp.get? i with
      | some b => combineLoop tmp size endian rest (value + (b <<< ((size - i - 1) * 8)))
      | none => GetIntResult.indexError
    else GetIntResult.assertionError

/-- Combine the sliced bytes `tmp` into an integer (`value` starts at 0). -/
def combineBytes (tmp : List Nat) (size : Nat) (endian : String) : GetIntResult :=
  combineLoop tmp size endian (List.range size) 0

/-- `SectionTable.get_unsigned_int`: scan for the first matching section,
slice `section[address : address + size]` (absolute addresses translated to
offsets, Python slicing truncating silently at the end of the data), and
run the combining loop.  The 4-byte alignment check only prints a warning
and has no effect on the result. -/
def get_unsigned_int (table : List Section) (sectionName : String)
    (address size : Nat) (endian : String) : GetIntResult :=
  match findMatch table sectionName address with
  | some s =>
    combineBytes ((s.data.drop (address - s.start_address)).take size) size endian
  | none => GetIntResult.none

/-- The NUL-scanning loop of `get_string`: index of the first `0` byte. -/
def findNulIndex : List Nat → Nat → Option Nat
  | [], _ => none
  | c :: rest, i => if c == 0 then some i else findNulIndex rest (i + 1)

/-- `SectionTable.get_string`: scan for the first matching section, slice
`section[address:]`, and truncate just before the first NUL byte when one
is present. -/
def get_string (table : List Section) (sectionName : String) (address : Nat) :
    Option (List Nat) :=
  match findMatch table sectionName address with
  | some s =>
    let value := s.data.drop (address - s.start_address)
    some (match findNulIndex value 0 with
          | some i => value.take i
          | none => value)
  | none => none

/-! ## Spec-modelled hex-dump encoder

The repository contains no encoder; the spec's round-trip property
("encoding a byte sequence as a hex-dump section and parsing it back")
needs one.  The following definitions are modelled from the spec: a header
line `"Contents of section <name>:"` followed by data lines of the form
`<hex address> <whitespace-separated 4-byte hex groups>  <ascii rendering>`
(16 bytes per line, as in conventional `objdump -s` output). -/

/-- Modelled from the spec: lowercase hex digit character for a value
below 16. -/
def hexDigitChar (n : Nat) : Char :=
  if n < 10 then Char.ofNat ('0'.toNat + n) else Char.ofNat ('a'.toNat + (n - 10))

/-- Modelled from the spec: one byte as two hex digits. -/
def byteToHex (b : Nat) : List Char :=
  [hexDigitChar (b / 16), hexDigitChar (b % 16)]

/-- Modelled from the spec: fixed-width big-endian hex rendering, `d`
digits (the low `d` hex digits of `n`). -/
def natToHexAux : Nat → Nat → List Char
  | 0, _ => []
  | d + 1, n => natToHexAux d (n / 16) ++ [hexDigitChar (n % 16)]

/-- Modelled from the spec: the conventional 8-digit address token. -/
def natToHex8 (n : Nat) : List Char :=
  natToHexAux 8 n

/-- Modelled from the spec: the 4-byte hex groups of one data line
(the final group holds the leftover 1–3 bytes).  Fuel-indexed for
structural recursion; fuel `bs.length` suffices. -/
def groupTokensF : Nat → List Nat → List (List Char)
  | 0, _ => []
  | _, [] => []
  | fuel + 1, b :: bs =>
    (((b :: bs).take 4).map byteToHex).flatten ::
      groupTokensF fuel ((b :: bs).drop 4)

/-- Modelled from the spec: tokens separated by single spaces. -/
def joinTokens : List (List Char) → List Char
  | [] => []
  | [t] => t
  | t :: t2 :: ts => t ++ ' ' :: joinTokens (t2 :: ts)

/-- Modelled from the spec: the trailing ASCII rendering (its content is
discarded by the parser; a dot placeholder per byte). -/
def asciiRendering (bs : List Nat) : List Char :=
  bs.map fun _ => '.'

/-- Modelled from the spec: one data line — address token, the hex groups,
two spaces, the ASCII rendering. -/
def encodeLine (a : Nat) (bs : List Nat) : String :=
  String.mk (joinTokens (natToHex8 a :: groupTokensF bs.length bs) ++
    ' ' :: ' ' :: asciiRendering bs)

/-- Modelled from the spec: the data lines, 16 bytes per line, addresses
advancing by 16.  Fuel-indexed; fuel `bs.length` suffices. -/
def encodeLinesF : Nat → Nat → List Nat → List String
  | 0, _, _ => []
  | _, _, [] => []
  | fuel + 1, a, b :: bs =>
    encodeLine a ((b :: bs).take 16) ::
      encodeLinesF fuel (a + 16) ((b :: bs).drop 16)

/-- Modelled from the spec: a whole hex-dump section — header line, then
the data lines. -/
def encode_hex_dump_section (name : String) (addr : Nat) (bytes : List Nat) :
    List String :=
  String.mk (headerLiteral ++ name.data ++ [ ':' ]) ::
    encodeLinesF bytes.length addr bytes

/-- Modelled from the spec (the decoding algorithm exactly as the spec
words it, for comparison with the code's per-token `hex_to_str`):
"concatenate all data tokens after the address token, treat as a hex
string; if its length is odd, left-pad with a `0` nibble; decode pairs of
hex digits into individual byte values". -/
def concatThenPadDecode (data_tokens : List (List Char)) : List Nat :=
  decodePairs (if data_tokens.flatten.length % 2 == 1 then
    '0' :: data_tokens.flatten else data_tokens.flatten)

/-- Two consecutive spaces nowhere in the list (the condition under which
`split("  ")[0]` keeps a prefix intact). -/
def noTwoSpaces : List Char → Bool
  | [] => true
  | [_] => true
  | c :: c2 :: rest => if c = ' ' ∧ c2 = ' ' then false else noTwoSpaces (c2 :: rest)

/-! ## Helper lemmas -/

/-- Unfolding of `Section.__contains__` into a proposition. -/
lemma contains_iff (s : Section) (nm : String) (addr : Nat) :
    s.contains nm addr = true ↔
      ((nm = "any" ∨ nm = s.name) ∧
        s.start_address ≤ addr ∧ addr < s.start_address + s.data.length) := by
  simp only [Section.contains, Bool.and_eq_true, Bool.or_eq_true, beq_iff_eq,
    decide_eq_true_eq]
  tauto

/-- A matching section returned by the scan satisfies the containment test. -/
lemma findMatch_contains {table : List Section} {nm : String} {addr : Nat}
    {s : Section} (h : findMatch table nm addr = some s) :
    s.contains nm addr = true := by
  unfold findMatch at h
  have h2 := List.find?_some h
  simpa using h2

/-- When no section of the table matches, the scan comes up empty. -/
lemma findMatch_eq_none {table : List Section} {nm : String} {addr : Nat}
    (h : ∀ s ∈ table, s.contains nm addr = false) :
    findMatch table nm addr = none := by
  refine List.find?_eq_none.mpr fun s hs => ?_
  simp [h s hs]

/-- A section rejecting the key is transparent to the scan. -/
lemma findMatch_skip {s : Section} {nm : String} {addr : Nat}
    (hs : s.contains nm addr = false) (pre post : List Section) :
    findMatch (pre ++ s :: post) nm addr = findMatch (pre ++ post) nm addr := by
  unfold findMatch
  rw [List.find?_append, List.find?_append,
    List.find?_cons_of_neg _ (by simp [hs])]

/-- When every section of `pre` rejects the key and `A` accepts it, the scan
over `pre ++ A :: post` stops at `A`. -/
lemma findMatch_first {pre : List Section} {A : Section} {nm : String}
    {addr : Nat} (hpre : ∀ s ∈ pre, s.contains nm addr = false)
    (hA : A.contains nm addr = true) (post : List Section) :
    findMatch (pre ++ A :: post) nm addr = some A := by
  unfold findMatch
  rw [List.find?_append, List.find?_eq_none.mpr fun s hs => by simp [hpre s hs]]
  simp [List.find?_cons, hA]

/-- The combining loop on the little-endian branch, when every index is in
range: it returns the sum of the bytes shifted by their index times 8. -/
lemma combineLoop_LE (tmp : List Nat) (size : Nat) :
    ∀ (idxs : List Nat) (v : Nat), (∀ i ∈ idxs, i < tmp.length) →
      combineLoop tmp size "LE" idxs v =
        GetIntResult.value (v + (idxs.map fun i => tmp.getD i 0 <<< (i * 8)).sum) := by
  intro idxs
  induction idxs with
  | nil => intro v _; simp [combineLoop]
  | cons i rest ih =>
    intro v h
    have hi : i < tmp.length := h i (by simp)
    rcases hget : tmp[i]? with _ | b
    · rw [List.getElem?_eq_none_iff] at hget; omega
    · have hgd : tmp.getD i 0 = b := by
        rw [List.getD_eq_getElem?_getD, hget]; rfl
      have hrec := ih (v + b <<< (i * 8)) fun j hj => h j (by simp [hj])
      calc combineLoop tmp size "LE" (i :: rest) v
          = combineLoop tmp size "LE" rest (v + b <<< (i * 8)) := by
            simp [combineLoop, hget]
        _ = GetIntResult.value
              (v + ((i :: rest).map fun k => tmp.getD k 0 <<< (k * 8)).sum) := by
            rw [hrec]; simp [hget, hgd, Nat.add_assoc]

/-- The combining loop on the big-endian branch, all indices in range. -/
lemma combineLoop_BE (tmp : List Nat) (size : Nat) :
    ∀ (idxs : List Nat) (v : Nat), (∀ i ∈ idxs, i < tmp.length) →
      combineLoop tmp size "BE" idxs v =
        GetIntResult.value
          (v + (idxs.map fun i => tmp.getD i 0 <<< ((size - 1 - i) * 8)).sum) := by
  intro idxs
  induction idxs with
  | nil => intro v _; simp [combineLoop]
  | cons i rest ih =>
    intro v h
    have hi : i < tmp.length := h i (by simp)
    rcases hget : tmp[i]? with _ | b
    · rw [List.getElem?_eq_none_iff] at hget; omega
    · have hgd : tmp.getD i 0 = b := by
        rw [List.getD_eq_getElem?_getD, hget]; rfl
      have hsub : size - i - 1 = size - 1 - i := by omega
      have hrec := ih (v + b <<< ((size - i - 1) * 8)) fun j hj => h j (by simp [hj])
      calc combineLoop tmp size "BE" (i :: rest) v
          = combineLoop tmp size "BE" rest (v + b <<< ((size - i - 1) * 8)) := by
            simp [combineLoop, hget]
        _ = GetIntResult.value
              (v + ((i :: rest).map fun k => tmp.getD k 0 <<< ((size - 1 - k) * 8)).sum) := by
            rw [hrec]; simp [hget, hgd, hsub, Nat.add_assoc]

/-- With a valid endian argument, the loop raises `IndexError` as soon as an
index of the list reaches past the end of the sliced data. -/
lemma combineLoop_oob (tmp : List Nat) (size : Nat) {endian : String}
    (he : endian = "LE" ∨ endian = "BE") :
    ∀ (idxs : List Nat) (v : Nat), (∃ i ∈ idxs, tmp.length ≤ i) →
      combineLoop tmp size endian idxs v = GetIntResult.indexError := by
  intro idxs
  induction idxs with
  | nil => rintro v ⟨i, hi, -⟩; cases hi
  | cons i rest ih =>
    rintro v ⟨j, hj, hjlen⟩
    rcases hget : tmp[i]? with _ | b
    · rcases he with he | he <;> subst he <;> simp [combineLoop, hget]
    · have hi : i < tmp.length := by
        rcases List.getElem?_eq_some.mp hget with ⟨h, -⟩; exact h
      have hjr : j ∈ rest := by
        rcases List.mem_cons.mp hj with rfl | h
        · omega
        · exact h
      rcases he with he | he <;> subst he <;>
        simp [combineLoop, hget, ih _ ⟨j, hjr, hjlen⟩]

/-- The slice `section[address : address + size]` read pointwise inside the
original data: entry `i` of the slice is byte `address - start + i`. -/
lemma slice_getD {data : List Nat} {k size i : Nat} (hi : i < size) :
    ((data.drop k).take size).getD i 0 = data.getD (k + i) 0 := by
  rw [List.getD_eq_getElem?_getD, List.getD_eq_getElem?_getD,
    List.getElem?_take_of_lt hi, List.getElem?_drop]

/-- Length of the slice `section[address : address + size]`. -/
lemma slice_length (data : List Nat) (k size : Nat) :
    ((data.drop k).take size).length = min size (data.length - k) := by
  simp [List.length_take, List.length_drop]

/-- The NUL-scanning loop of `get_string`, as a closed form: the position of
the first zero byte (shifted by the running index), if any. -/
lemma findNulIndex_eq (value : List Nat) : ∀ k, findNulIndex value k =
    if 0 ∈ value then some (value.indexOf 0 + k) else none := by
  induction value with
  | nil => intro k; simp [findNulIndex]
  | cons c v ih =>
    intro k
    rcases eq_or_ne c 0 with rfl | hc
    · simp [findNulIndex, List.indexOf_cons_self]
    · have hne : (c == 0) = false := by simp [hc]
      have : (0 : Nat) ∈ c :: v ↔ (0 : Nat) ∈ v := by simp [hc.symm]
      rw [findNulIndex, hne]
      simp only [Bool.false_eq_true, if_false]
      rw [ih (k + 1), List.indexOf_cons_ne _ (by simpa using hc)]
      by_cases hm : (0 : Nat) ∈ v
      · rw [if_pos hm, if_pos (this.mpr hm), Nat.succ_eq_add_one]
        congr 1
        omega
      · rw [if_neg hm, if_neg (fun hx => hm (this.mp hx))]

/-! ## C5: the containment test -/

/-- C5: for every `Section` and query key, `__contains__` is true iff the
name matches (or is the wildcard `"any"`) and the address lies in
`[start_address, start_address + len(data))`. -/
theorem claim5_contains_iff (s : Section) (nm : String) (addr : Nat) :
    s.contains nm addr = true ↔
      ((nm = "any" ∨ nm = s.name) ∧
        s.start_address ≤ addr ∧ addr < s.start_address + s.data.length) :=
  contains_iff s nm addr

/-! ## C7: queries with no matching section -/

/-- C7: when no section of the table accepts the key (in particular for any
address outside all sections' ranges), `get_unsigned_int` and `get_string`
both return `none`; and the table built from empty input is empty. -/
theorem claim7_no_match_returns_none (table : List Section) (nm : String)
    (addr size : Nat) (endian : String)
    (h : ∀ s ∈ table, s.contains nm addr = false) :
    get_unsigned_int table nm addr size endian = GetIntResult.none ∧
      get_string table nm addr = none ∧ buildTable [] = some [] := by
  refine ⟨?_, ?_, rfl⟩ <;> simp [get_unsigned_int, get_string, findMatch_eq_none h]

/-- Witness for C7 at a concrete table and an address outside its range. -/
theorem claim7_witness :
    get_unsigned_int [⟨"s", 256, [1, 2]⟩] "any" 7 4 "LE" = GetIntResult.none ∧
      get_string [⟨"s", 256, [1, 2]⟩] "any" 7 = none ∧ buildTable [] = some [] :=
  claim7_no_match_returns_none [⟨"s", 256, [1, 2]⟩] "any" 7 4 "LE" (by decide)

/-! ## C8: invalid endian argument -/

/-- C8 counterexample: with an endian argument that is neither `"LE"` nor
`"BE"`, the code does *not* always abort: with no matching section it
silently returns `None`, and with a matching section but `size = 0` it
returns the integer `0` (the assertion sits inside the byte loop, which is
never entered). -/
theorem claim8_counterexample :
    get_unsigned_int [] "any" 0 4 "XX" = GetIntResult.none ∧
      get_unsigned_int [⟨"s", 0, [1]⟩] "any" 0 0 "XX" = GetIntResult.value 0 := by
  exact ⟨rfl, rfl⟩

/-- C8 as amended: the invalid-endian assertion fires exactly when the byte
loop runs, i.e. when some section matches the key and `size ≥ 1`; then the
call fails with `assert False` rather than returning a value or `None`. -/
theorem claim8_invalid_endian_asserts_on_match (table : List Section)
    (nm : String) (addr size : Nat) (endian : String) (s : Section)
    (hfind : findMatch table nm addr = some s) (hsize : 0 < size)
    (h1 : endian ≠ "LE") (h2 : endian ≠ "BE") :
    get_unsigned_int table nm addr size endian = GetIntResult.assertionError := by
  obtain ⟨n, rfl⟩ : ∃ n, size = n + 1 := ⟨size - 1, by omega⟩
  have e1 : (endian == "LE") = false := by simp [h1]
  have e2 : (endian == "BE") = false := by simp [h2]
  simp [get_unsigned_int, hfind, combineBytes, List.range_succ_eq_map,
    combineLoop, e1, e2]

/-- Witness for C8's amended theorem at a concrete matching call. -/
theorem claim8_witness :
    get_unsigned_int [⟨"s", 0, [1]⟩] "any" 0 4 "XX" = GetIntResult.assertionError :=
  claim8_invalid_endian_asserts_on_match [⟨"s", 0, [1]⟩] "any" 0 4 "XX"
    ⟨"s", 0, [1]⟩ rfl (by decide) (by decide) (by decide)

/-! ## C3: endianness of `get_unsigned_int` -/

/-- C3: an in-range read of `size` bytes `b[0..size-1]` starting at `addr`
combines them as `Σ b[i] << (i*8)` for `"LE"` and `Σ b[i] << ((size-1-i)*8)`
for `"BE"`, where `b[i]` is the byte at offset `addr - start_address + i` of
the first matching section. -/
theorem claim3_get_unsigned_int_endian (table : List Section) (nm : String)
    (addr size : Nat) (s : Section)
    (hfind : findMatch table nm addr = some s)
    (hrange : addr - s.start_address + size ≤ s.data.length) :
    get_unsigned_int table nm addr size "LE" =
      GetIntResult.value (((List.range size).map fun i =>
        s.data.getD (addr - s.start_address + i) 0 <<< (i * 8)).sum) ∧
    get_unsigned_int table nm addr size "BE" =
      GetIntResult.value (((List.range size).map fun i =>
        s.data.getD (addr - s.start_address + i) 0 <<< ((size - 1 - i) * 8)).sum) := by
  have hlen : ((s.data.drop (addr - s.start_address)).take size).length = size := by
    rw [slice_length]; omega
  have hin : ∀ i ∈ List.range size,
      i < ((s.data.drop (addr - s.start_address)).take size).length := by
    intro i hi; rw [hlen]; exact List.mem_range.mp hi
  constructor
  · calc get_unsigned_int table nm addr size "LE"
        = combineBytes ((s.data.drop (addr - s.start_address)).take size) size "LE" := by
          rw [get_unsigned_int, hfind]
      _ = GetIntResult.value (((List.range size).map fun i =>
            s.data.getD (addr - s.start_address + i) 0 <<< (i * 8)).sum) := by
          rw [combineBytes, combineLoop_LE _ size (List.range size) 0 hin]
          congr 1
          rw [Nat.zero_add]
          refine congrArg List.sum (List.map_congr_left fun i hi => ?_)
          rw [slice_getD (List.mem_range.mp hi)]
  · calc get_unsigned_int table nm addr size "BE"
        = combineBytes ((s.data.drop (addr - s.start_address)).take size) size "BE" := by
          rw [get_unsigned_int, hfind]
      _ = GetIntResult.value (((List.range size).map fun i =>
            s.data.getD (addr - s.start_address + i) 0 <<< ((size - 1 - i) * 8)).sum) := by
          rw [combineBytes, combineLoop_BE _ size (List.range size) 0 hin]
          congr 1
          rw [Nat.zero_add]
          refine congrArg List.sum (List.map_congr_left fun i hi => ?_)
          rw [slice_getD (List.mem_range.mp hi)]

/-- Witness for C3: the spec's own example, bytes `[0x01,0x02,0x03,0x04]`,
read little-endian as `0x04030201` and big-endian as `0x01020304`. -/
theorem claim3_witness :
    get_unsigned_int [⟨"s", 256, [1, 2, 3, 4]⟩] "any" 256 4 "LE" =
      GetIntResult.value 0x04030201 ∧
    get_unsigned_int [⟨"s", 256, [1, 2, 3, 4]⟩] "any" 256 4 "BE" =
      GetIntResult.value 0x01020304 := by
  have h := claim3_get_unsigned_int_endian [⟨"s", 256, [1, 2, 3, 4]⟩] "any"
    256 4 ⟨"s", 256, [1, 2, 3, 4]⟩ rfl (by decide)
  exact ⟨h.1.trans (by decide), h.2.trans (by decide)⟩

/-! ## C9: reads running past the end of the matched section -/

/-- C9: the containment test only checks the queried start address, so when
the first matching section contains `addr` but its data ends before
`addr + size`, the combining loop indexes past the end of the slice and the
call fails with `IndexError` — it neither returns `None` nor an integer
(those are the other, distinct constructors of the result type). -/
theorem claim9_short_read_index_error (table : List Section) (nm : String)
    (addr size : Nat) (s : Section) (endian : String)
    (hfind : findMatch table nm addr = some s)
    (he : endian = "LE" ∨ endian = "BE")
    (hshort : s.data.length < addr - s.start_address + size) :
    get_unsigned_int table nm addr size endian = GetIntResult.indexError := by
  have hc := (contains_iff s nm addr).mp (findMatch_contains hfind)
  have hk : addr - s.start_address < s.data.length := by omega
  have hlen : ((s.data.drop (addr - s.start_address)).take size).length =
      s.data.length - (addr - s.start_address) := by
    rw [slice_length]; omega
  calc get_unsigned_int table nm addr size endian
      = combineBytes ((s.data.drop (addr - s.start_address)).take size) size endian := by
        rw [get_unsigned_int, hfind]
    _ = GetIntResult.indexError := by
        rw [combineBytes]
        exact combineLoop_oob _ size he (List.range size) 0
          ⟨s.data.length - (addr - s.start_address),
            List.mem_range.mpr (by omega), by omega⟩

/-- Witness for C9: a 4-byte read at offset 2 of a 4-byte section. -/
theorem claim9_witness :
    get_unsigned_int [⟨"s", 256, [1, 2, 3, 4]⟩] "any" 258 4 "LE" =
      GetIntResult.indexError :=
  claim9_short_read_index_error [⟨"s", 256, [1, 2, 3, 4]⟩] "any" 258 4
    ⟨"s", 256, [1, 2, 3, 4]⟩ "LE" rfl (Or.inl rfl) (by decide)

/-! ## C4: first match wins -/

/-- C4: both lookups scan the table in insertion order and use the first
section accepting the key: with every section before `A` rejecting the key
and `A` accepting it, the result over `pre ++ A :: post` equals the result
over the one-element table `[A]` — the sections after `A` (e.g. an
overlapping later section) cannot influence it. -/
theorem claim4_first_match_wins (pre post : List Section) (A : Section)
    (nm : String) (addr size : Nat) (endian : String)
    (hpre : ∀ s ∈ pre, s.contains nm addr = false)
    (hA : A.contains nm addr = true) :
    get_unsigned_int (pre ++ A :: post) nm addr size endian =
      get_unsigned_int [A] nm addr size endian ∧
    get_string (pre ++ A :: post) nm addr = get_string [A] nm addr := by
  have h1 : findMatch (pre ++ A :: post) nm addr = some A :=
    findMatch_first hpre hA post
  have h2 : findMatch [A] nm addr = some A := by
    unfold findMatch
    simp [List.find?_cons, hA]
  rw [get_unsigned_int, get_unsigned_int, h1, h2, get_string, get_string, h1, h2]
  exact ⟨rfl, rfl⟩

/-- Witness for C4: the spec's overlap scenario — section A `[0x100,0x110)`
inserted before B `[0x108,0x118)`; the 4-byte read at `0x109` comes from A
(bytes 9..12 of A's data), not from B. -/
theorem claim4_witness :
    get_unsigned_int [⟨"A", 0x100, [0, 1, 2, 3, 4, 5, 6, 7, 8, 9, 10, 11, 12, 13, 14, 15]⟩,
        ⟨"B", 0x108, [100, 101, 102, 103, 104, 105, 106, 107, 108, 109, 110, 111, 112, 113, 114, 115]⟩]
        "any" 0x109 4 "LE" =
      get_unsigned_int [⟨"A", 0x100, [0, 1, 2, 3, 4, 5, 6, 7, 8, 9, 10, 11, 12, 13, 14, 15]⟩]
        "any" 0x109 4 "LE" ∧
    get_unsigned_int [⟨"A", 0x100, [0, 1, 2, 3, 4, 5, 6, 7, 8, 9, 10, 11, 12, 13, 14, 15]⟩]
        "any" 0x109 4 "LE" = GetIntResult.value 0x0c0b0a09 := by
  have h := claim4_first_match_wins []
    [⟨"B", 0x108, [100, 101, 102, 103, 104, 105, 106, 107, 108, 109, 110, 111, 112, 113, 114, 115]⟩]
    ⟨"A", 0x100, [0, 1, 2, 3, 4, 5, 6, 7, 8, 9, 10, 11, 12, 13, 14, 15]⟩
    "any" 0x109 4 "LE" (by simp) (by decide)
  exact ⟨h.1, by decide⟩

/-! ## C6: `get_string` -/

/-- C6: a matching `get_string` query returns the bytes of the first
matching section from the queried address to the end of its data, truncated
just before the first NUL byte when one is present, and the full remainder
otherwise. -/
theorem claim6_get_string_truncates_at_nul (table : List Section)
    (nm : String) (addr : Nat) (s : Section)
    (hfind : findMatch table nm addr = some s) :
    (0 ∈ s.data.drop (addr - s.start_address) →
      get_string table nm addr =
        some ((s.data.drop (addr - s.start_address)).take
          ((s.data.drop (addr - s.start_address)).indexOf 0))) ∧
    (0 ∉ s.data.drop (addr - s.start_address) →
      get_string table nm addr = some (s.data.drop (addr - s.start_address))) := by
  have hg : get_string table nm addr =
      some (match findNulIndex (s.data.drop (addr - s.start_address)) 0 with
            | some i => (s.data.drop (addr - s.start_address)).take i
            | none => s.data.drop (addr - s.start_address)) := by
    rw [get_string, hfind]
  constructor
  · intro hmem
    rw [hg, findNulIndex_eq (s.data.drop (addr - s.start_address)) 0, if_pos hmem]
    simp
  · intro hmem
    rw [hg, findNulIndex_eq (s.data.drop (addr - s.start_address)) 0, if_neg hmem]

/-- Witness for C6: data `b"hello\0world"` queried at the section's start
address yields the bytes of `"hello"`. -/
theorem claim6_witness :
    get_string [⟨"s", 256,
        [104, 101, 108, 108, 111, 0, 119, 111, 114, 108, 100]⟩] "any" 256 =
      some [104, 101, 108, 108, 111] := by
  have h := (claim6_get_string_truncates_at_nul
    [⟨"s", 256, [104, 101, 108, 108, 111, 0, 119, 111, 114, 108, 100]⟩] "any" 256
    ⟨"s", 256, [104, 101, 108, 108, 111, 0, 119, 111, 114, 108, 100]⟩ rfl).1
    (by decide)
  exact h.trans (by decide)

/-! ## Parsing a chunk whose first data line is malformed -/

/-- When a header line is found but the first following line yields no
parsable leading hex address, `parse_raw_data` builds the placeholder
`Section(name, 0, "")` — `start_address` keeps its initial `0`, which the
vacuous `start_address != -1` guard accepts — and returns it with a `none`
remainder. -/
lemma parse_raw_data_header_bad_first (lines : List String) (name : String)
    (l : String) (rest : List String)
    (hh : findHeader lines = some (name, l :: rest))
    (hp : (process_data_line l.data).1 = none) :
    parse_raw_data lines = ParseResult.ok (some ⟨name, 0, []⟩) none := by
  rcases hq : process_data_line l.data with ⟨a, d⟩
  rw [hq] at hp
  simp only at hp
  subst hp
  simp [parse_raw_data, hh, hq]

/-! ## C1: section header with malformed first data line -/

/-- C1 counterexample: on a chunk whose header is found but whose first data
line has no parsable address, `parse_raw_data` does *not* return `none` for
the section: it returns the constructed placeholder
`Section(".text", 0, "")` (with a `none` remainder). -/
theorem claim1_counterexample :
    parse_raw_data ["Contents of section .text:", "xyz"] =
      ParseResult.ok (some ⟨".text", 0, []⟩) none ∧
    some (⟨".text", 0, []⟩ : Section) ≠ none := by
  exact ⟨by decide, by decide⟩

/-- C1 as amended: for every chunk in which a section header line is found
but the first following data line fails to yield a valid leading hex
address token, `parse_raw_data` returns the placeholder section
`Section(name, 0, "")` (a constructed value, not `none`) together with a
`none` remainder, so the caller stops after appending the placeholder. -/
theorem claim1_bad_first_line_placeholder (lines : List String) (name : String)
    (l : String) (rest : List String)
    (hh : findHeader lines = some (name, l :: rest))
    (hp : (process_data_line l.data).1 = none) :
    parse_raw_data lines = ParseResult.ok (some ⟨name, 0, []⟩) none :=
  parse_raw_data_header_bad_first lines name l rest hh hp

/-- Witness for C1's amended theorem: header on the second line, then a
line without any hex token. -/
theorem claim1_witness :
    parse_raw_data ["junk", "Contents of section .data:", "oops"] =
      ParseResult.ok (some ⟨".data", 0, []⟩) none :=
  claim1_bad_first_line_placeholder ["junk", "Contents of section .data:", "oops"]
    ".data" "oops" [] (by decide) (by decide)

/-! ## C10: sections with empty data are inert -/

/-- C10: a `Section` with empty data (in particular the placeholder
`Section(name, 0, "")` built when a chunk's first data line is unparsable)
satisfies the containment test for no query key, and removing it from any
table position changes no `get_unsigned_int` or `get_string` result. -/
theorem claim10_empty_section_inert (s : Section) (hdata : s.data = []) :
    (∀ nm addr, s.contains nm addr = false) ∧
    (∀ pre post nm addr size endian,
      get_unsigned_int (pre ++ s :: post) nm addr size endian =
        get_unsigned_int (pre ++ post) nm addr size endian) ∧
    (∀ pre post nm addr,
      get_string (pre ++ s :: post) nm addr = get_string (pre ++ post) nm addr) ∧
    (∀ lines name l rest, findHeader lines = some (name, l :: rest) →
      (process_data_line l.data).1 = none →
      ∃ t : Section, parse_raw_data lines = ParseResult.ok (some t) none ∧
        t.start_address = 0 ∧ t.data = []) := by
  have hcf : ∀ nm addr, s.contains nm addr = false := by
    intro nm addr
    cases h : s.contains nm addr
    · rfl
    · exfalso
      have h2 := (contains_iff s nm addr).mp h
      rw [hdata] at h2
      simp at h2
      omega
  refine ⟨hcf, ?_, ?_, ?_⟩
  · intro pre post nm addr size endian
    rw [get_unsigned_int, get_unsigned_int, findMatch_skip (hcf nm addr) pre post]
  · intro pre post nm addr
    rw [get_string, get_string, findMatch_skip (hcf nm addr) pre post]
  · intro lines name l rest hh hp
    exact ⟨⟨name, 0, []⟩, parse_raw_data_header_bad_first lines name l rest hh hp,
      rfl, rfl⟩

/-- Witness for C10: inserting an empty-data section in front of a table
does not affect a query answered by the section behind it. -/
theorem claim10_witness :
    (⟨"x", 5, []⟩ : Section).data = [] ∧
    get_unsigned_int [⟨"x", 5, []⟩, ⟨"s", 0, [7]⟩] "any" 0 1 "LE" =
      get_unsigned_int [⟨"s", 0, [7]⟩] "any" 0 1 "LE" := by
  have h := claim10_empty_section_inert ⟨"x", 5, []⟩ rfl
  exact ⟨rfl, h.2.1 [] [⟨"s", 0, [7]⟩] "any" 0 1 "LE"⟩

/-! ## Lemmas about the encoder primitives -/

/-- `hexVal` inverts `hexDigitChar` on digit values. -/
lemma hexVal_hexDigitChar : ∀ m < 16, hexVal (hexDigitChar m) = m := by decide

/-- `hexDigitChar` emits characters of the class `[0-9a-f]`. -/
lemma isHexDigit_hexDigitChar : ∀ m < 16, isHexDigit (hexDigitChar m) = true := by
  decide

/-- Hex digit characters are not spaces. -/
lemma isHexDigit_ne_space {c : Char} (h : isHexDigit c = true) : c ≠ ' ' := by
  rintro rfl
  exact absurd h (by decide)

/-- Both characters of an encoded byte are hex digits. -/
lemma byteToHex_hex {b : Nat} (hb : b < 256) :
    ∀ c ∈ byteToHex b, isHexDigit c = true := by
  intro c hc
  rcases List.mem_cons.mp hc with rfl | hc
  · exact isHexDigit_hexDigitChar _ (by omega)
  · rcases List.mem_cons.mp hc with rfl | hc
    · exact isHexDigit_hexDigitChar _ (by omega)
    · cases hc

/-- Decoding the two digits of an encoded byte recovers the byte. -/
lemma decodePairs_byteToHex (b : Nat) (rest : List Char) (hb : b < 256) :
    decodePairs (byteToHex b ++ rest) = b :: decodePairs rest := by
  show decodePairs (hexDigitChar (b / 16) :: hexDigitChar (b % 16) :: rest) = _
  rw [decodePairs, hexVal_hexDigitChar _ (by omega), hexVal_hexDigitChar _ (by omega)]
  congr 1
  omega

/-- Decoding an encoded byte group recovers the group. -/
lemma decodePairs_flatten_byteToHex (g : List Nat) (h : ∀ b ∈ g, b < 256) :
    decodePairs ((g.map byteToHex).flatten) = g := by
  induction g with
  | nil => rfl
  | cons b g ih =>
    rw [List.map_cons, List.flatten_cons, decodePairs_byteToHex b _ (h b (by simp)),
      ih fun x hx => h x (by simp [hx])]

/-- An encoded byte group has two hex digits per byte. -/
lemma length_flatten_byteToHex (g : List Nat) :
    ((g.map byteToHex).flatten).length = 2 * g.length := by
  induction g with
  | nil => rfl
  | cons b g ih => simp [byteToHex, ih]; omega

/-- `hex_to_str` on an encoded byte group: even length, so no padding, and
pair decoding recovers the bytes. -/
lemma hex_to_str_flatten_byteToHex (g : List Nat) (h : ∀ b ∈ g, b < 256) :
    hex_to_str ((g.map byteToHex).flatten) = g := by
  rw [hex_to_str, length_flatten_byteToHex]
  have : (2 * g.length % 2 == 1) = false := by
    simp [Nat.mul_mod_right]
  rw [this]
  exact decodePairs_flatten_byteToHex g h

/-- The fixed-width hex rendering has exactly `d` digits. -/
lemma length_natToHexAux (d : Nat) : ∀ n, (natToHexAux d n).length = d := by
  induction d with
  | zero => intro n; rfl
  | succ d ih => intro n; simp [natToHexAux, ih]

/-- Every character of the fixed-width hex rendering is a hex digit. -/
lemma natToHexAux_hex (d : Nat) :
    ∀ n c, c ∈ natToHexAux d n → isHexDigit c = true := by
  induction d with
  | zero => intro n c hc; cases hc
  | succ d ih =>
    intro n c hc
    rw [natToHexAux] at hc
    rcases List.mem_append.mp hc with hc | hc
    · exact ih _ c hc
    · rcases List.mem_cons.mp hc with rfl | hc
      · exact isHexDigit_hexDigitChar _ (by omega)
      · cases hc

/-- `int(s, 16)` after appending one digit. -/
lemma hexToNat_append_digit (xs : List Char) (c : Char) :
    hexToNat (xs ++ [c]) = hexToNat xs * 16 + hexVal c := by
  rw [hexToNat, hexToNat, List.foldl_append]
  rfl

/-- `int(s, 16)` inverts the fixed-width rendering up to its width. -/
lemma hexToNat_natToHexAux (d : Nat) :
    ∀ n, hexToNat (natToHexAux d n) = n % 16 ^ d := by
  induction d with
  | zero => intro n; simp [natToHexAux, hexToNat, Nat.mod_one]
  | succ d ih =>
    intro n
    rw [natToHexAux, hexToNat_append_digit, ih (n / 16),
      hexVal_hexDigitChar _ (by omega), pow_succ' 16 d, Nat.mod_mul]
    ring

/-- `int(s, 16)` inverts the 8-digit address rendering below `2^32`. -/
lemma hexToNat_natToHex8 {n : Nat} (h : n < 2 ^ 32) :
    hexToNat (natToHex8 n) = n := by
  rw [natToHex8, hexToNat_natToHexAux]
  exact Nat.mod_eq_of_lt (lt_of_lt_of_le h (by norm_num))

/-- A single 4-to-8 digit run is one token of the scanner. -/
lemma chunkTokens_single (t : List Char) (h4 : 4 ≤ t.length) (h8 : t.length ≤ 8) :
    chunkTokens t = [t] := by
  rw [chunkTokens]
  obtain ⟨f, hf⟩ : ∃ f, t.length = f + 1 := ⟨t.length - 1, by omega⟩
  have h1 : chunkFuel t.length t = chunkFuel (f + 1) t := by rw [hf]
  rw [h1, chunkFuel, if_neg (by omega), if_pos (by omega)]

/-! ## Lemmas about the token scanner on encoded lines -/

/-- The scanner swallows a hex-digit run into the accumulator. -/
lemma findallAux_hexrun (r : List Char) (hr : ∀ c ∈ r, isHexDigit c = true) :
    ∀ rest cur, findallAux (r ++ rest) cur = findallAux rest (r.reverse ++ cur) := by
  induction r with
  | nil => intro rest cur; simp
  | cons c r ih =>
    intro rest cur
    rw [List.cons_append, findallAux, if_pos (hr c (by simp)),
      ih (fun x hx => hr x (by simp [hx])) rest (c :: cur)]
    simp

/-- The scanner flushes the accumulated run at a space. -/
lemma findallAux_space (rest cur : List Char) :
    findallAux (' ' :: rest) cur = chunkTokens cur.reverse ++ findallAux rest [] := by
  rw [findallAux, if_neg (by decide)]

/-- The scanner on space-separated 4-to-8 digit hex tokens returns exactly
those tokens. -/
lemma findallHex_joinTokens (ts : List (List Char))
    (h : ∀ t ∈ ts, (∀ c ∈ t, isHexDigit c = true) ∧ 4 ≤ t.length ∧ t.length ≤ 8) :
    findallHex (joinTokens ts) = ts := by
  induction ts with
  | nil => rfl
  | cons t ts ih =>
    obtain ⟨hhex, h4, h8⟩ := h t (by simp)
    rcases ts with _ | ⟨t2, ts2⟩
    · show findallAux (joinTokens [t]) [] = [t]
      rw [joinTokens, show (t : List Char) = t ++ [] by simp,
        findallAux_hexrun t hhex [] [], findallAux]
      simp [chunkTokens_single t h4 h8]
    · show findallAux (joinTokens (t :: t2 :: ts2)) [] = t :: t2 :: ts2
      rw [joinTokens, findallAux_hexrun t hhex _ [], findallAux_space]
      simp only [List.append_nil, List.reverse_reverse]
      rw [chunkTokens_single t h4 h8]
      have := ih fun x hx => h x (by simp [hx])
      rw [findallHex] at this
      rw [this]
      rfl

/-! ## Lemmas about the header line -/

/-- `takeWhile` up to an appended colon keeps a colon-free prefix. -/
lemma takeWhile_ne_colon (cs : List Char) (h : ':' ∉ cs) :
    (cs ++ [ ':' ]).takeWhile (fun x => x ≠ ':') = cs := by
  induction cs with
  | nil => simp
  | cons c cs ih =>
    have hc : c ≠ ':' := fun hx => h (by simp [hx])
    rw [List.cons_append, List.takeWhile_cons, if_pos (by simp [hc]),
      ih fun hx => h (by simp [hx])]

/-- The lazy group on `<name>:` captures the whole colon-free name. -/
lemma nameUpToColon_name (nm : List Char) (hne : nm ≠ []) (hc : ':' ∉ nm) :
    nameUpToColon (nm ++ [ ':' ]) = some nm := by
  rcases nm with _ | ⟨c, cs⟩
  · exact absurd rfl hne
  · show nameUpToColon (c :: (cs ++ [ ':' ])) = _
    rw [nameUpToColon, if_pos (by simp),
      takeWhile_ne_colon cs fun hx => hc (by simp [hx])]

/-- The header regex on the literal followed by `<name>:` captures the
name. -/
lemma searchHeader_encoded (nm : List Char) (hne : nm ≠ []) (hc : ':' ∉ nm) :
    searchHeader (headerLiteral ++ (nm ++ [ ':' ])) = some nm := by
  have heq : headerLiteral ++ (nm ++ [ ':' ]) =
      'C' :: ("ontents of section ".data ++ (nm ++ [ ':' ])) := rfl
  have hpre : headerLiteral.isPrefixOf (headerLiteral ++ (nm ++ [ ':' ])) = true := by
    rw [List.isPrefixOf_iff_prefix]
    exact List.prefix_append _ _
  have hdrop : (headerLiteral ++ (nm ++ [ ':' ])).drop headerLiteral.length =
      nm ++ [ ':' ] := List.drop_left _ _
  rw [heq, searchHeader, ← heq, if_pos hpre, hdrop, nameUpToColon_name nm hne hc]

/-- The header-seeking loop on an encoded section finds the header on the
first line and hands back the following lines. -/
lemma findHeader_encoded (name : String) (rest : List String)
    (hne : name.data ≠ []) (hc : ':' ∉ name.data) :
    findHeader (String.mk (headerLiteral ++ name.data ++ [ ':' ]) :: rest) =
      some (name, rest) := by
  rw [findHeader]
  show (match searchHeader (headerLiteral ++ name.data ++ [ ':' ]) with
    | some n => some (String.mk n, rest)
    | none => findHeader rest) = some (name, rest)
  rw [List.append_assoc, searchHeader_encoded name.data hne hc]

/-! ## Lemmas about the ASCII-rendering separator -/

/-- Unfolding lemma: the two-character window of the double-space check. -/
lemma noTwoSpaces_cons2 (c c2 : Char) (rest : List Char) :
    noTwoSpaces (c :: c2 :: rest) =
      if c = ' ' ∧ c2 = ' ' then false else noTwoSpaces (c2 :: rest) := rfl

/-- Unfolding lemma: the two-character window of `split("  ")[0]`. -/
lemma splitTwoSpaces_cons2 (c c2 : Char) (rest : List Char) :
    splitTwoSpaces (c :: c2 :: rest) =
      if c = ' ' ∧ c2 = ' ' then [] else c :: splitTwoSpaces (c2 :: rest) := rfl

/-- A hex-digit run is transparent to the double-space check. -/
lemma noTwoSpaces_hex_prefix (r : List Char) (hr : ∀ c ∈ r, isHexDigit c = true) :
    ∀ rest, noTwoSpaces (r ++ rest) = noTwoSpaces rest := by
  induction r with
  | nil => intro rest; simp
  | cons c r ih =>
    intro rest
    have hcs : c ≠ ' ' := isHexDigit_ne_space (hr c (by simp))
    have ihr := ih fun x hx => hr x (by simp [hx])
    rcases hX : r ++ rest with _ | ⟨c2, Y⟩
    · obtain ⟨rfl, rfl⟩ := List.append_eq_nil.mp hX
      simp [noTwoSpaces]
    · rw [List.cons_append, hX, noTwoSpaces_cons2, if_neg fun hx => hcs hx.1, ← hX, ihr]

/-- The head of a joined nonempty token list is the head of its first
token. -/
lemma joinTokens_cons_shape (t : List Char) (ts : List (List Char)) :
    ∃ X, joinTokens (t :: ts) = t ++ X := by
  rcases ts with _ | ⟨t2, ts2⟩
  · exact ⟨[], by simp [joinTokens]⟩
  · exact ⟨' ' :: joinTokens (t2 :: ts2), rfl⟩

/-- Joined nonempty hex tokens followed by one space have no double
space. -/
lemma noTwoSpaces_joinTokens (ts : List (List Char))
    (h : ∀ t ∈ ts, t ≠ [] ∧ ∀ c ∈ t, isHexDigit c = true) :
    noTwoSpaces (joinTokens ts ++ [ ' ' ]) = true := by
  induction ts with
  | nil => rfl
  | cons t ts ih =>
    obtain ⟨hne, hhex⟩ := h t (by simp)
    rcases ts with _ | ⟨t2, ts2⟩
    · rw [joinTokens, noTwoSpaces_hex_prefix t hhex]
      rfl
    · rw [joinTokens, List.append_assoc, List.cons_append,
        noTwoSpaces_hex_prefix t hhex]
      obtain ⟨X, hX⟩ := joinTokens_cons_shape t2 ts2
      obtain ⟨hne2, hhex2⟩ := h t2 (by simp)
      rcases t2 with _ | ⟨c2, cs2⟩
      · exact absurd rfl hne2
      · have hc2 : c2 ≠ ' ' := isHexDigit_ne_space (hhex2 c2 (by simp))
        have hJ : joinTokens ((c2 :: cs2) :: ts2) ++ [ ' ' ] =
            c2 :: (cs2 ++ X ++ [ ' ' ]) := by
          rw [hX]; simp
        rw [hJ, noTwoSpaces_cons2, if_neg fun hx => hc2 hx.2, ← hJ]
        exact ih fun x hx => h x (by simp [hx])

/-- `split("  ")[0]` keeps a double-space-free prefix intact. -/
lemma splitTwoSpaces_marker (l r : List Char)
    (h : noTwoSpaces (l ++ [ ' ' ]) = true) :
    splitTwoSpaces (l ++ ' ' :: ' ' :: r) = l := by
  induction l with
  | nil => rfl
  | cons c l ih =>
    rcases l with _ | ⟨cl, l2⟩
    · have hcs : c ≠ ' ' := by
        rintro rfl
        exact absurd h (by decide)
      show splitTwoSpaces (c :: ' ' :: ' ' :: r) = [c]
      rw [splitTwoSpaces_cons2, if_neg fun hx => hcs hx.1]
      rfl
    · simp only [List.cons_append] at h
      rw [noTwoSpaces_cons2] at h
      have hwin : ¬(c = ' ' ∧ cl = ' ') := by
        intro hx
        rw [if_pos hx] at h
        exact absurd h (by decide)
      rw [if_neg hwin] at h
      show splitTwoSpaces (c :: cl :: (l2 ++ ' ' :: ' ' :: r)) = c :: cl :: l2
      rw [splitTwoSpaces_cons2, if_neg hwin]
      have := ih (by simpa using h)
      simp only [List.cons_append] at this
      rw [this]

/-! ## Lemmas about encoded data lines -/

/-- The 4-byte hex groups of a line: decoding each through `hex_to_str` and
concatenating recovers the bytes, each token is a 4-to-8 digit hex token,
and a nonempty line yields at least one token.  Requires the line's byte
count not to be `1 (mod 4)`: a trailing single byte would make a 2-digit
token, below the tokenizer's 4-digit minimum. -/
lemma groupTokensF_spec : ∀ (fuel : Nat) (bs : List Nat), bs.length ≤ fuel →
    (∀ b ∈ bs, b < 256) → bs.length % 4 ≠ 1 →
    ((groupTokensF fuel bs).map hex_to_str).flatten = bs ∧
    (∀ t ∈ groupTokensF fuel bs,
      (∀ c ∈ t, isHexDigit c = true) ∧ 4 ≤ t.length ∧ t.length ≤ 8) ∧
    (bs ≠ [] → groupTokensF fuel bs ≠ []) := by
  intro fuel
  induction fuel with
  | zero =>
    intro bs hlen _ _
    have : bs = [] := List.length_eq_zero.mp (by omega)
    subst this
    exact ⟨rfl, fun t ht => absurd ht (List.not_mem_nil t), fun h => absurd rfl h⟩
  | succ f ih =>
    intro bs hlen hlt hmod
    rcases bs with _ | ⟨b, bs'⟩
    · exact ⟨rfl, fun t ht => absurd ht (List.not_mem_nil t), fun h => absurd rfl h⟩
    · have hl1 : 1 ≤ (b :: bs').length := by simp
      have htk : ((b :: bs').take 4).length = min 4 (b :: bs').length :=
        List.length_take 4 (b :: bs')
      have hmin : 2 ≤ min 4 (b :: bs').length ∧ min 4 (b :: bs').length ≤ 4 := by
        rcases Nat.lt_or_ge (b :: bs').length 4 with hlt4 | hge4
        · exact ⟨by omega, by omega⟩
        · exact ⟨by omega, by omega⟩
      have hdlen : ((b :: bs').drop 4).length = (b :: bs').length - 4 :=
        List.length_drop 4 (b :: bs')
      have hdmod : ((b :: bs').drop 4).length % 4 ≠ 1 := by
        rw [hdlen]
        rcases Nat.lt_or_ge (b :: bs').length 4 with hlt4 | hge4
        · omega
        · omega
      have hdlt : ∀ x ∈ (b :: bs').drop 4, x < 256 :=
        fun x hx => hlt x (List.mem_of_mem_drop hx)
      obtain ⟨ih1, ih2, _⟩ := ih ((b :: bs').drop 4) (by omega) hdlt hdmod
      have htlt : ∀ x ∈ (b :: bs').take 4, x < 256 :=
        fun x hx => hlt x (List.mem_of_mem_take hx)
      refine ⟨?_, ?_, fun _ => by simp [groupTokensF]⟩
      · rw [groupTokensF, List.map_cons, List.flatten_cons,
          hex_to_str_flatten_byteToHex _ htlt, ih1, List.take_append_drop]
      · intro t ht
        rw [groupTokensF] at ht
        rcases List.mem_cons.mp ht with rfl | ht
        · refine ⟨?_, ?_, ?_⟩
          · intro c hc
            rw [List.mem_flatten] at hc
            obtain ⟨u, hu, hcu⟩ := hc
            obtain ⟨x, hx, rfl⟩ := List.mem_map.mp hu
            exact byteToHex_hex (htlt x hx) c hcu
          · rw [length_flatten_byteToHex, htk]; omega
          · rw [length_flatten_byteToHex, htk]; omega
        · exact ih2 t ht

/-- `process_data_line` on an encoded data line: the address token parses
to the address modulo `2^32`, the data tokens decode to the line's bytes. -/
lemma process_encodeLine (a : Nat) (bs : List Nat)
    (hlt : ∀ b ∈ bs, b < 256) (hmod : bs.length % 4 ≠ 1) :
    process_data_line (encodeLine a bs).data = (some (a % 2 ^ 32), bs) := by
  obtain ⟨hflat, htoks, hnonempty⟩ :=
    groupTokensF_spec bs.length bs (le_refl _) hlt hmod
  have htokens : ∀ t ∈ natToHex8 a :: groupTokensF bs.length bs,
      (∀ c ∈ t, isHexDigit c = true) ∧ 4 ≤ t.length ∧ t.length ≤ 8 := by
    intro t ht
    rcases List.mem_cons.mp ht with rfl | ht
    · have hlen8 : (natToHex8 a).length = 8 := length_natToHexAux 8 a
      exact ⟨fun c hc => natToHexAux_hex 8 a c hc, by omega, by omega⟩
    · exact htoks t ht
  have hnt : ∀ t ∈ natToHex8 a :: groupTokensF bs.length bs,
      t ≠ [] ∧ ∀ c ∈ t, isHexDigit c = true := by
    intro t ht
    obtain ⟨hhex, h4, _⟩ := htokens t ht
    exact ⟨by intro hx; rw [hx] at h4; simp at h4, hhex⟩
  have hsplit : splitTwoSpaces ((encodeLine a bs).data) =
      joinTokens (natToHex8 a :: groupTokensF bs.length bs) := by
    show splitTwoSpaces (joinTokens (natToHex8 a :: groupTokensF bs.length bs) ++
      ' ' :: ' ' :: asciiRendering bs) = _
    exact splitTwoSpaces_marker _ _ (noTwoSpaces_joinTokens _ hnt)
  rw [process_data_line]
  simp only [hsplit, findallHex_joinTokens _ htokens]
  have haddr : hexToNat (natToHex8 a) = a % 2 ^ 32 := by
    rw [natToHex8, hexToNat_natToHexAux]
    norm_num
  simp only [List.drop_succ_cons, List.drop_zero, haddr, hflat]

/-- The data-line consuming loop over encoded lines: every line parses, so
the loop gathers all the bytes and finishes without a break. -/
lemma consumeAux_encodeLinesF : ∀ (fuel a : Nat) (bs : List Nat),
    bs.length ≤ fuel → (∀ b ∈ bs, b < 256) → bs.length % 4 ≠ 1 →
    consumeAux (encodeLinesF fuel a bs) = (bs, none) := by
  intro fuel
  induction fuel with
  | zero =>
    intro a bs hlen _ _
    have : bs = [] := List.length_eq_zero.mp (by omega)
    subst this
    rfl
  | succ f ih =>
    intro a bs hlen hlt hmod
    rcases bs with _ | ⟨b, bs'⟩
    · rfl
    · have htlt : ∀ x ∈ (b :: bs').take 16, x < 256 :=
        fun x hx => hlt x (List.mem_of_mem_take hx)
      have htmod : ((b :: bs').take 16).length % 4 ≠ 1 := by
        rw [List.length_take]
        rcases Nat.lt_or_ge (b :: bs').length 16 with h16 | h16
        · have : min 16 (b :: bs').length = (b :: bs').length := by omega
          rw [this]; exact hmod
        · have : min 16 (b :: bs').length = 16 := by omega
          rw [this]; omega
      have hdlt : ∀ x ∈ (b :: bs').drop 16, x < 256 :=
        fun x hx => hlt x (List.mem_of_mem_drop hx)
      have hdmod : ((b :: bs').drop 16).length % 4 ≠ 1 := by
        rw [List.length_drop]
        rcases Nat.lt_or_ge (b :: bs').length 16 with h16 | h16
        · omega
        · omega
      have hdlen : ((b :: bs').drop 16).length ≤ f := by
        rw [List.length_drop]
        simp only [List.length_cons] at hlen ⊢
        omega
      have hrec := ih (a + 16) ((b :: bs').drop 16) hdlen hdlt hdmod
      rw [encodeLinesF, consumeAux]
      have hline : process_data_line (encodeLine a ((b :: bs').take 16)).data =
          (some (a % 2 ^ 32), (b :: bs').take 16) :=
        process_encodeLine a _ htlt htmod
      rw [hline]
      simp only [hrec, List.take_append_drop]

/-- `parse_raw_data` on a chunk whose header is found and whose first data
line parses: the section collects the first line's bytes and everything the
consuming loop adds; the remainder is `none` exactly when the loop's final
line list is empty. -/
lemma parse_raw_data_good (lines : List String) (name : String) (first : String)
    (restLines : List String) (a : Nat) (d ds : List Nat) (un : List String)
    (hh : findHeader lines = some (name, first :: restLines))
    (hp : process_data_line first.data = (some a, d))
    (hcl : consumeLines restLines = (ds, un)) :
    parse_raw_data lines =
      ParseResult.ok (some ⟨name, a, d ++ ds⟩)
        (if un.isEmpty then none else some un) := by
  have hguard : ((a : Int) ≠ -1) := by omega
  simp [parse_raw_data, hh, hp, hcl, hguard]

/-! ## C2: hex decoding and the round-trip property -/

/-- C2 counterexample: the code pads each data token separately, not the
concatenation.  On the line `"00000100 abcde 12345"` (two odd-length
tokens) the code decodes `0a bc de 01 23 45`, while the spec's
concatenate-then-pad algorithm (`concatThenPadDecode`) yields
`ab cd e1 23 45` — six bytes versus five.  And the round-trip fails for the
single byte `0x41`: its 2-digit token is below the tokenizer's 4-digit
minimum and is dropped, so the parsed section has empty data. -/
theorem claim2_counterexample :
    ((process_data_line "00000100 abcde 12345".data).2 =
        [10, 188, 222, 1, 35, 69] ∧
      concatThenPadDecode [[ 'a', 'b', 'c', 'd', 'e' ], [ '1', '2', '3', '4', '5' ]] =
        [171, 205, 225, 35, 69] ∧
      ([10, 188, 222, 1, 35, 69] : List Nat) ≠ [171, 205, 225, 35, 69]) ∧
    parse_raw_data (encode_hex_dump_section "s" 256 [65]) =
      ParseResult.ok (some ⟨"s", 256, []⟩) none := by
  exact ⟨⟨by decide, by decide, by decide⟩, by decide⟩

/-- C2 as amended: the odd-length `0`-nibble padding is applied to each
data token individually by `hex_to_str` (so a token `"abc"` decodes as
`"0abc"`), not to the concatenation of all tokens; and the round-trip holds
for every nonempty byte sequence whose length is not `1 (mod 4)` (a
trailing 1-byte group would encode as a 2-hex-digit token, which the
4-to-8-digit tokenizer drops), with the start address below `2^32` and a
nonempty, colon-free section name. -/
theorem claim2_round_trip :
    hex_to_str [ 'a', 'b', 'c' ] = decodePairs [ '0', 'a', 'b', 'c' ] ∧
    ∀ (name : String) (addr : Nat) (bytes : List Nat),
      bytes ≠ [] → (∀ b ∈ bytes, b < 256) → bytes.length % 4 ≠ 1 →
      addr < 2 ^ 32 → name.data ≠ [] → ':' ∉ name.data →
      ∃ un, parse_raw_data (encode_hex_dump_section name addr bytes) =
        ParseResult.ok (some ⟨name, addr, bytes⟩) un := by
  refine ⟨rfl, ?_⟩
  intro name addr bytes hne hlt hmod haddr hname hcolon
  rcases bytes with _ | ⟨b, bs⟩
  · exact absurd rfl hne
  have hfh : findHeader (encode_hex_dump_section name addr (b :: bs)) =
      some (name, encodeLine addr ((b :: bs).take 16) ::
        encodeLinesF bs.length (addr + 16) ((b :: bs).drop 16)) :=
    findHeader_encoded name _ hname hcolon
  have htlt : ∀ x ∈ (b :: bs).take 16, x < 256 :=
    fun x hx => hlt x (List.mem_of_mem_take hx)
  have htmod : ((b :: bs).take 16).length % 4 ≠ 1 := by
    rw [List.length_take]
    simp only [List.length_cons] at hmod ⊢
    omega
  have hfirst : process_data_line (encodeLine addr ((b :: bs).take 16)).data =
      (some addr, (b :: bs).take 16) := by
    rw [process_encodeLine addr _ htlt htmod, Nat.mod_eq_of_lt haddr]
  have hdlt : ∀ x ∈ (b :: bs).drop 16, x < 256 :=
    fun x hx => hlt x (List.mem_of_mem_drop hx)
  have hdmod : ((b :: bs).drop 16).length % 4 ≠ 1 := by
    rw [List.length_drop]
    simp only [List.length_cons] at hmod ⊢
    omega
  have hdlen : ((b :: bs).drop 16).length ≤ bs.length := by
    rw [List.length_drop]
    simp only [List.length_cons]
    omega
  have hcons : consumeAux (encodeLinesF bs.length (addr + 16) ((b :: bs).drop 16)) =
      ((b :: bs).drop 16, none) :=
    consumeAux_encodeLinesF bs.length (addr + 16) _ hdlen hdlt hdmod
  have hcl : consumeLines (encodeLinesF bs.length (addr + 16) ((b :: bs).drop 16)) =
      ((b :: bs).drop 16, encodeLinesF bs.length (addr + 16) ((b :: bs).drop 16)) := by
    rw [consumeLines, hcons]
  have hgood := parse_raw_data_good (encode_hex_dump_section name addr (b :: bs))
    name (encodeLine addr ((b :: bs).take 16))
    (encodeLinesF bs.length (addr + 16) ((b :: bs).drop 16))
    addr ((b :: bs).take 16) ((b :: bs).drop 16)
    (encodeLinesF bs.length (addr + 16) ((b :: bs).drop 16))
    hfh hfirst hcl
  rw [List.take_append_drop] at hgood
  exact ⟨_, hgood⟩

/-- Witness for C2's amended round-trip at a concrete section: name `"rx"`,
start address `0x100`, six bytes. -/
theorem claim2_witness :
    ∃ un, parse_raw_data (encode_hex_dump_section "rx" 256 [1, 2, 3, 4, 5, 6]) =
      ParseResult.ok (some ⟨"rx", 256, [1, 2, 3, 4, 5, 6]⟩) un :=
  claim2_round_trip.2 "rx" 256 [1, 2, 3, 4, 5, 6] (by decide) (by decide)
    (by decide) (by decide) (by decide) (by decide)

end CreateSectionTable
